import Mathlib

set_option maxHeartbeats 1000000

namespace OscdRenameIeds

/-!
Shallow embedding of src/oscd-rename-ieds.ts: the search-query compiler
getSearchRegex and the IED rename validation engine (customCheckValidity,
duplicatedIedName, the renderIedItem input handler, run, and the commit
click handler of the Rename IEDs button).
-/

/-- Characters matched by the JavaScript regex whitespace class (the code
points relevant to this development). -/
def isSpaceJS (c : Char) : Bool :=
  c == ' ' || c == '\t' || c == '\n' || c == '\r' || c == '\x0b' ||
  c == '\x0c' || c.val == 0xa0 || c.val == 0xfeff

/-- Quote characters recognised by the tokenizer. -/
def isQuote (c : Char) : Bool := c == '\'' || c == '"'

/-- The metacharacter class escaped by getSearchRegex's first replace. -/
def isEscaped (c : Char) : Bool :=
  c == '.' || c == '+' || c == '^' || c == '$' || c == '{' || c == '}' ||
  c == '(' || c == ')' || c == '|' || c == '[' || c == ']' || c == '\\'

/-- The replace call prefixing each metacharacter with a backslash. -/
def escapeChars : List Char → List Char
  | [] => []
  | c :: cs =>
    if isEscaped c then '\\' :: c :: escapeChars cs else c :: escapeChars cs

/-- String.prototype.trim: strip whitespace from both ends. -/
def jsTrim (cs : List Char) : List Char :=
  ((cs.dropWhile isSpaceJS).reverse.dropWhile isSpaceJS).reverse

/-- A character usable inside the first tokenizer alternative: neither
whitespace nor a quote. -/
def nsq (c : Char) : Bool := !isSpaceJS c && !isQuote c

/-- One maximal run of non-whitespace non-quote characters (the first
alternative of the tokenizer regex). -/
def unit1 (cs : List Char) : Option (List Char × List Char) :=
  let r := cs.takeWhile nsq
  if r.isEmpty then none else some (r, cs.dropWhile nsq)

/-- One quoted chunk: a quote, a maximal run of non-quote characters, then a
closing quote of either kind (the second alternative of the tokenizer regex);
an unterminated quote fails. -/
def unit2 (cs : List Char) : Option (List Char × List Char) :=
  match cs with
  | [] => none
  | q :: rest =>
    if isQuote q then
      let body := rest.takeWhile fun c => !isQuote c
      match rest.dropWhile fun c => !isQuote c with
      | q2 :: rest2 => some (q :: (body ++ [q2]), rest2)
      | [] => none
    else none

/-- Greedy repetition of the two unit alternatives, as the tokenizer regex's
one-or-more group; fuel bounds the number of iterations. -/
def unitsGo : Nat → List Char → List Char × List Char
  | 0, cs => ([], cs)
  | fuel + 1, cs =>
    match unit1 cs with
    | some (u, rest) =>
      let p := unitsGo fuel rest
      (u ++ p.1, p.2)
    | none =>
      match unit2 cs with
      | some (u, rest) =>
        let p := unitsGo fuel rest
        (u ++ p.1, p.2)
      | none => ([], cs)

/-- Global scan producing every match of the tokenizer regex in order. -/
def tokensGo : Nat → List Char → List (List Char)
  | 0, _ => []
  | _ + 1, [] => []
  | fuel + 1, c :: cs =>
    let p := unitsGo (c :: cs).length (c :: cs)
    if p.1.isEmpty then tokensGo fuel cs else p.1 :: tokensGo fuel p.2

/-- The match call splitting the escaped search expression into terms. -/
def tokenize (cs : List Char) : List (List Char) := tokensGo cs.length cs

/-- Replace each star with dot star (match any run of characters). -/
def expandStar : List Char → List Char
  | [] => []
  | c :: cs =>
    if c = '*' then '.' :: '*' :: expandStar cs else c :: expandStar cs

/-- Replace each question mark with a dot bounded to exactly one repetition. -/
def expandQn : List Char → List Char
  | [] => []
  | c :: cs =>
    if c = '?' then '.' :: '{' :: '1' :: '}' :: expandQn cs
    else c :: expandQn cs

/-- Per-term glob expansion followed by quote deletion. -/
def expandTerm (t : List Char) : List Char :=
  (expandQn (expandStar t)).filter fun c => !isQuote c

/-- getSearchRegex, modelled as the list of expanded regex terms; the RegExp
it assembles from them (a lookahead per term, then dot star, flag i) is given
test semantics by regexTestL below.  An empty input compiles to the match-all
regex, which the empty term list also denotes. -/
def getSearchRegex (s : String) : List (List Char) :=
  if s = "" then []
  else (tokenize (jsTrim (escapeChars s.toList))).map expandTerm

/-- Atoms of the regex fragment the compiler emits inside a term. -/
inductive Atom where
  | lit (c : Char)
  | one
  | star
deriving DecidableEq, Repr

/-- Characters matched by a JavaScript regex dot: all but line terminators. -/
def isDotChar (c : Char) : Bool :=
  !(c == '\n' || c == '\r' || c.val == 0x2028 || c.val == 0x2029)

/-- Case-insensitive character comparison, the regex flag i (ASCII folding). -/
def ciEq (a b : Char) : Bool := a.toLower == b.toLower

/-- Parse one expanded term into atoms: a backslash-escaped literal, dot star,
dot bounded to one repetition, or a plain literal character. -/
def parseAtoms : List Char → List Atom
  | [] => []
  | '\\' :: c :: rest => .lit c :: parseAtoms rest
  | '.' :: '*' :: rest => .star :: parseAtoms rest
  | '.' :: '{' :: '1' :: '}' :: rest => .one :: parseAtoms rest
  | c :: rest => .lit c :: parseAtoms rest

/-- Nondeterministic regex matching of an atom sequence against some prefix
of the character list; dot star consumes any run of dot characters, realised
as a choice over every split point. -/
def matchAtoms : List Atom → List Char → Bool
  | [], _ => true
  | .lit c :: as, xs =>
    match xs with
    | [] => false
    | x :: xs2 => ciEq c x && matchAtoms as xs2
  | .one :: as, xs =>
    match xs with
    | [] => false
    | x :: xs2 => isDotChar x && matchAtoms as xs2
  | .star :: as, xs =>
    (List.range (xs.length + 1)).any fun j =>
      (xs.take j).all isDotChar && matchAtoms as (xs.drop j)

/-- Semantics of test for the assembled regex: a chain of lookaheads, one per
term, then dot star, applied at every start offset as test does. -/
def regexTestL (terms : List (List Char)) (s : List Char) : Bool :=
  (List.range (s.length + 1)).any fun k =>
    terms.all fun t => matchAtoms (.star :: parseAtoms t) (s.drop k)

/-- Test a candidate string against a compiled search expression. -/
def regexTest (terms : List (List Char)) (s : String) : Bool :=
  regexTestL terms s.toList

/-- A plain search term character: no whitespace, no quote, no glob
metacharacter; regex metacharacters are allowed since the compiler escapes
them into literals. -/
def plainTermChar (c : Char) : Bool :=
  nsq c && c != '*' && c != '?'

/-- Case-insensitive prefix comparison of two character lists. -/
def ciStarts : List Char → List Char → Bool
  | [], _ => true
  | _ :: _, [] => false
  | c :: t, x :: s => ciEq c x && ciStarts t s

/-- Case-insensitive substring occurrence: the needle matches at some
offset of the haystack. -/
def ciSubstr (t s : List Char) : Bool :=
  (List.range (s.length + 1)).any fun j => ciStarts t (s.drop j)

/-- The single user-facing reason customCheckValidity can report per field. -/
inductive Reason where
  | EMPTY
  | PATTERN_MISMATCH
  | LENGTH_OUT_OF_RANGE
  | DUPLICATE
  | VALID
deriving DecidableEq, Repr

/-- One md-filled-text-field of the list: its data-old-name, its live value,
the validity last reported for it, and its changed class. -/
structure IedItem where
  oldName : String
  value : String
  reason : Reason
  changed : Bool
deriving DecidableEq, Repr

/-- The dialog state: the fields in list order, the iedsToRename array and
the allIedNamesValid flag. -/
structure Session where
  items : List IedItem
  iedsToRename : List String
  allIedNamesValid : Bool
deriving DecidableEq, Repr

/-- ASCII letter, the leading class of the field pattern. -/
def isAsciiLetter (c : Char) : Bool :=
  (decide ('A' ≤ c) && decide (c ≤ 'Z')) ||
  (decide ('a' ≤ c) && decide (c ≤ 'z'))

/-- Full match of the field pattern: a letter, then letters, digits or
underscores. -/
def patternOk (v : String) : Bool :=
  match v.toList with
  | [] => false
  | c :: cs =>
    isAsciiLetter c && cs.all fun d => isAsciiLetter d || d.isDigit || d == '_'

/-- HTML valueMissing for a required field: the value is empty. -/
def valueMissing (v : String) : Bool := decide (v = "")

/-- HTML patternMismatch: only a nonempty value is checked against the
pattern, which must match the whole value. -/
def patternMismatch (v : String) : Bool := !valueMissing v && !patternOk v

/-- HTML tooShort against the field's minLength of 1. -/
def tooShort (v : String) : Bool := !valueMissing v && decide (v.length < 1)

/-- HTML tooLong against the field's maxLength of 64. -/
def tooLong (v : String) : Bool := decide (64 < v.length)

/-- duplicatedIedName: collect every field's live value and report whether
the number of fields holding iedName differs from one. -/
def duplicatedIedName (newNames : List String) (iedName : String) : Bool :=
  (newNames.filter fun n => n == iedName).length != 1

/-- The branch cascade of customCheckValidity, as the reason it reports. -/
def checkReason (values : List String) (v : String) : Reason :=
  if valueMissing v then .EMPTY
  else if patternMismatch v then .PATTERN_MISMATCH
  else if tooLong v || tooShort v then .LENGTH_OUT_OF_RANGE
  else if duplicatedIedName values v then .DUPLICATE
  else .VALID

/-- The boolean customCheckValidity returns: no rule fired. -/
def customCheckValidity (values : List String) (v : String) : Bool :=
  decide (checkReason values v = Reason.VALID)

/-- run(): reset every field to its old name, clear custom validity and the
changed class, empty iedsToRename and set allIedNamesValid. -/
def run (names : List String) : Session :=
  { items := names.map fun n =>
      { oldName := n, value := n, reason := Reason.VALID, changed := false }
    iedsToRename := []
    allIedNamesValid := true }

/-- Set the changed class of the field at index i. -/
def setChanged (items : List IedItem) (i : Nat) (b : Bool) : List IedItem :=
  match items.get? i with
  | none => items
  | some it => items.set i { it with changed := b }

/-- The live set of every field's current value, as read by
duplicatedIedName from the list. -/
def liveValues (items : List IedItem) : List String :=
  items.map fun j => j.value

/-- Re-run customCheckValidity on every field against the live values,
storing the reported reason on each. -/
def revalidate (items : List IedItem) : List IedItem :=
  items.map fun j => { j with reason := checkReason (liveValues items) j.value }

/-- The fold computing allIedNamesValid: map customCheckValidity over every
field and conjoin (the source folds with a bare reduce, so the field list is
nonempty whenever the handler can fire). -/
def allNamesValid (items : List IedItem) : Bool :=
  (items.map fun j => customCheckValidity (liveValues items) j.value).all id

/-- The renderIedItem input handler: the field at index i now holds v; every
field is re-validated against the live set of values, allIedNamesValid is
recomputed as the conjunction of the per-field results, and iedsToRename
plus the changed class track whether the value differs from the field's old
name. -/
def setCurrentValue (s : Session) (i : Nat) (v : String) : Session :=
  match s.items.get? i with
  | none => s
  | some it =>
    let items1 := s.items.set i { it with value := v }
    if v ≠ it.oldName then
      { items := setChanged (revalidate items1) i true
        iedsToRename :=
          if s.iedsToRename.contains it.oldName then s.iedsToRename
          else s.iedsToRename ++ [it.oldName]
        allIedNamesValid := allNamesValid items1 }
    else
      { items := setChanged (revalidate items1) i false
        iedsToRename := s.iedsToRename.filter fun n => n != it.oldName
        allIedNamesValid := allNamesValid items1 }

/-- The disabled condition of the Rename IEDs button. -/
def renameDisabled (s : Session) : Bool :=
  decide (s.iedsToRename.length = 0) || !s.allIedNamesValid

/-- The commit click handler: for every list item whose original name still
identifies an IED of the document, dispatch an update pairing the old name
with the field's current value. -/
def commitPairs (docNames : List String) (s : Session) : List (String × String) :=
  (s.items.filter fun it => docNames.contains it.oldName).map fun it =>
    (it.oldName, it.value)

/-! Helper lemmas shared by the claim theorems. -/

lemma osr_all_map {α β : Type} (l : List α) (f : α → β) (p : β → Bool) :
    (l.map f).all p = l.all fun x => p (f x) := by
  induction l with
  | nil => rfl
  | cons a l ih => simp [List.all_cons, ih]

lemma osr_map_id_of {α : Type} (l : List α) (f : α → α)
    (h : ∀ a ∈ l, f a = a) : l.map f = l := by
  induction l with
  | nil => rfl
  | cons a l ih =>
    simp only [List.map_cons, h a (List.mem_cons_self a l)]
    rw [ih fun a ha => h a (List.mem_cons_of_mem _ ha)]

lemma osr_set_self {α : Type} (l : List α) (i : Nat) (a : α)
    (h : l.get? i = some a) : l.set i a = l := by
  induction l generalizing i with
  | nil => rfl
  | cons b l ih =>
    cases i with
    | zero => simp_all [List.get?]
    | succ j => simp_all [List.get?, List.set]

lemma osr_length_pos (v : String) (h : ¬v = "") : 0 < v.length := by
  cases v with
  | mk data =>
    cases data with
    | nil => exact absurd rfl h
    | cons c cs => simp [String.length]

lemma patternOk_ne_empty (v : String) (h : patternOk v = true) : v ≠ "" := by
  intro he
  subst he
  exact absurd h (by decide)

/-- Reading any changed-insensitive projection through setChanged. -/
lemma setChanged_map {α : Type} (l : List IedItem) (i : Nat) (b : Bool)
    (f : IedItem → α) (hf : ∀ it b, f { it with changed := b } = f it) :
    (setChanged l i b).map f = l.map f := by
  unfold setChanged
  cases hget : l.get? i with
  | none => rfl
  | some it =>
    rw [List.map_set, hf]
    exact osr_set_self _ _ _ (by rw [List.get?_map, hget]; rfl)

lemma setChanged_mem (l : List IedItem) (i : Nat) (b : Bool) (a : IedItem)
    (h : a ∈ setChanged l i b) : a ∈ l ∨ ∃ c ∈ l, a = { c with changed := b } := by
  unfold setChanged at h
  cases hget : l.get? i with
  | none => rw [hget] at h; exact Or.inl h
  | some it =>
    rw [hget] at h
    rcases List.mem_or_eq_of_mem_set h with h1 | h2
    · exact Or.inl h1
    · exact Or.inr ⟨it, List.get?_mem hget, h2⟩

lemma liveValues_setChanged (l : List IedItem) (i : Nat) (b : Bool) :
    liveValues (setChanged l i b) = liveValues l :=
  setChanged_map l i b _ fun _ _ => rfl

lemma liveValues_revalidate (l : List IedItem) :
    liveValues (revalidate l) = liveValues l := by
  unfold liveValues revalidate
  rw [List.map_map]
  rfl

lemma revalidate_mem (l : List IedItem) (it : IedItem) (h : it ∈ revalidate l) :
    it.reason = checkReason (liveValues l) it.value := by
  unfold revalidate at h
  rcases List.mem_map.mp h with ⟨j, _, rfl⟩
  rfl

lemma revalidate_eq_self (l : List IedItem)
    (h : ∀ it ∈ l, it.reason = checkReason (liveValues l) it.value) :
    revalidate l = l :=
  osr_map_id_of l _ fun it hit => by
    cases it with
    | mk o va r c => simpa using (h _ hit).symm

lemma allNamesValid_values (l : List IedItem) :
    allNamesValid l =
      ((liveValues l).map fun x => customCheckValidity (liveValues l) x).all id := by
  unfold allNamesValid liveValues
  rw [List.map_map]
  rfl

lemma allNamesValid_congr (l m : List IedItem)
    (h : liveValues l = liveValues m) : allNamesValid l = allNamesValid m := by
  rw [allNamesValid_values, allNamesValid_values, h]

lemma setChanged_setChanged (l : List IedItem) (i : Nat) (b : Bool) :
    setChanged (setChanged l i b) i b = setChanged l i b := by
  unfold setChanged
  cases hget : l.get? i with
  | none => simp only [hget]
  | some it =>
    have h2 : (l.set i { it with changed := b }).get? i = some { it with changed := b } := by
      have hlt : i < l.length := (List.get?_eq_some.mp hget).1
      exact List.get?_set_eq_of_lt _ (by simpa using hlt)
    simp only [hget, h2, List.set_set]

lemma setChanged_get_self (l : List IedItem) (i : Nat) (b : Bool) (it : IedItem)
    (hget : l.get? i = some it) :
    (setChanged l i b).get? i = some { it with changed := b } := by
  unfold setChanged
  rw [hget]
  have hlt : i < l.length := (List.get?_eq_some.mp hget).1
  exact List.get?_set_eq_of_lt _ (by simpa using hlt)

lemma revalidate_get (l : List IedItem) (i : Nat) (it : IedItem)
    (hget : l.get? i = some it) :
    (revalidate l).get? i =
      some { it with reason := checkReason (liveValues l) it.value } := by
  unfold revalidate
  rw [List.get?_map, hget]
  rfl

/-- After one pass of revalidation and a changed-mark update, every stored
reason agrees with a fresh check against the live values, and the stored
conjunction agrees with allNamesValid of the underlying field list. -/
lemma engine_core (items1 : List IedItem) (i : Nat) (b : Bool) :
    ((setChanged (revalidate items1) i b).all fun it => decide (it.reason = Reason.VALID)) =
      allNamesValid items1 ∧
    liveValues (setChanged (revalidate items1) i b) = liveValues items1 ∧
    ∀ it ∈ setChanged (revalidate items1) i b,
      it.reason = checkReason (liveValues items1) it.value := by
  refine ⟨?_, ?_, ?_⟩
  · calc ((setChanged (revalidate items1) i b).all fun it => decide (it.reason = Reason.VALID))
        = ((setChanged (revalidate items1) i b).map fun it => it.reason).all
            (fun r => decide (r = Reason.VALID)) :=
          (osr_all_map (setChanged (revalidate items1) i b) (fun it => it.reason)
            (fun r => decide (r = Reason.VALID))).symm
      _ = ((revalidate items1).map fun it => it.reason).all
            (fun r => decide (r = Reason.VALID)) := by
          rw [setChanged_map _ _ _ (fun it => it.reason) fun _ _ => rfl]
      _ = allNamesValid items1 := by
          unfold revalidate allNamesValid
          rw [List.map_map, osr_all_map, osr_all_map]
          rfl
  · rw [liveValues_setChanged, liveValues_revalidate]
  · intro it hit
    rcases setChanged_mem _ _ _ _ hit with h | ⟨c, hc, rfl⟩
    · exact revalidate_mem _ _ h
    · exact revalidate_mem items1 c hc

lemma setCurrentValue_pos (s : Session) (i : Nat) (v : String) (it0 : IedItem)
    (hget : s.items.get? i = some it0) (hvo : ¬v = it0.oldName) :
    setCurrentValue s i v =
      { items := setChanged (revalidate (s.items.set i { it0 with value := v })) i true
        iedsToRename :=
          if s.iedsToRename.contains it0.oldName then s.iedsToRename
          else s.iedsToRename ++ [it0.oldName]
        allIedNamesValid := allNamesValid (s.items.set i { it0 with value := v }) } := by
  simp only [setCurrentValue, hget]
  rw [if_pos hvo]

lemma setCurrentValue_neg (s : Session) (i : Nat) (v : String) (it0 : IedItem)
    (hget : s.items.get? i = some it0) (hvo : v = it0.oldName) :
    setCurrentValue s i v =
      { items := setChanged (revalidate (s.items.set i { it0 with value := v })) i false
        iedsToRename := s.iedsToRename.filter fun n => n != it0.oldName
        allIedNamesValid := allNamesValid (s.items.set i { it0 with value := v }) } := by
  simp only [setCurrentValue, hget]
  rw [if_neg (not_not_intro hvo)]

lemma setCurrentValue_shape (s : Session) (i : Nat) (v : String) (it0 : IedItem)
    (hget : s.items.get? i = some it0) :
    ∃ b : Bool,
      (setCurrentValue s i v).items =
        setChanged (revalidate (s.items.set i { it0 with value := v })) i b ∧
      (setCurrentValue s i v).allIedNamesValid =
        allNamesValid (s.items.set i { it0 with value := v }) := by
  by_cases hvo : v = it0.oldName
  · exact ⟨false, by rw [setCurrentValue_neg s i v it0 hget hvo],
      by rw [setCurrentValue_neg s i v it0 hget hvo]⟩
  · exact ⟨true, by rw [setCurrentValue_pos s i v it0 hget hvo],
      by rw [setCurrentValue_pos s i v it0 hget hvo]⟩

/-! Lemmas about the search-query compiler. -/

lemma plain_props (c : Char) (h : plainTermChar c = true) :
    nsq c = true ∧ c ≠ '*' ∧ c ≠ '?' := by
  unfold plainTermChar at h
  simp only [Bool.and_eq_true, bne_iff_ne] at h
  exact ⟨h.1.1, h.1.2, h.2⟩

lemma escapeChars_append (xs ys : List Char) :
    escapeChars (xs ++ ys) = escapeChars xs ++ escapeChars ys := by
  induction xs with
  | nil => rfl
  | cons c cs ih =>
    simp only [List.cons_append, escapeChars]
    split <;> simp [ih]

lemma escapeChars_mem (t : List Char) (c : Char) (h : c ∈ escapeChars t) :
    c = '\\' ∨ c ∈ t := by
  induction t with
  | nil => exact absurd h (by simp [escapeChars])
  | cons d ds ih =>
    unfold escapeChars at h
    by_cases hd : isEscaped d = true
    · rw [if_pos hd] at h
      simp only [List.mem_cons] at h
      rcases h with h | h | h
      · exact Or.inl h
      · exact Or.inr (by simp [h])
      · rcases ih h with h2 | h2
        · exact Or.inl h2
        · exact Or.inr (by simp [h2])
    · rw [if_neg hd] at h
      simp only [List.mem_cons] at h
      rcases h with h | h
      · exact Or.inr (by simp [h])
      · rcases ih h with h2 | h2
        · exact Or.inl h2
        · exact Or.inr (by simp [h2])

lemma escapeChars_ne_nil (t : List Char) (h : t ≠ []) : escapeChars t ≠ [] := by
  cases t with
  | nil => exact absurd rfl h
  | cons c cs =>
    unfold escapeChars
    split <;> simp

lemma nsq_escape (t : List Char) (hp : ∀ c ∈ t, plainTermChar c = true) :
    ∀ c ∈ escapeChars t, nsq c = true := by
  intro c hc
  rcases escapeChars_mem t c hc with rfl | hct
  · decide
  · exact (plain_props c (hp c hct)).1

lemma osr_takeWhile_append (p : Char → Bool) (u w : List Char)
    (hu : ∀ c ∈ u, p c = true) : (u ++ w).takeWhile p = u ++ w.takeWhile p := by
  induction u with
  | nil => rfl
  | cons c cs ih =>
    simp [List.takeWhile_cons, hu c (by simp), ih fun x hx => hu x (by simp [hx])]

lemma osr_dropWhile_append (p : Char → Bool) (u w : List Char)
    (hu : ∀ c ∈ u, p c = true) : (u ++ w).dropWhile p = w.dropWhile p := by
  induction u with
  | nil => rfl
  | cons c cs ih =>
    simp [List.dropWhile_cons, hu c (by simp), ih fun x hx => hu x (by simp [hx])]

lemma osr_dropWhile_cons_false (p : Char → Bool) (x : Char) (l : List Char)
    (h : p x = false) : (x :: l).dropWhile p = x :: l := by
  simp [List.dropWhile_cons, h]

lemma nsq_not_space (c : Char) (h : nsq c = true) : isSpaceJS c = false := by
  unfold nsq at h
  simp only [Bool.and_eq_true, Bool.not_eq_true'] at h
  exact h.1

lemma unit1_space (u w : List Char) (hu : ∀ c ∈ u, nsq c = true) (hne : u ≠ []) :
    unit1 (u ++ ' ' :: w) = some (u, ' ' :: w) := by
  have h1 : (' ' :: w).takeWhile nsq = [] := by
    simp [List.takeWhile_cons, show nsq ' ' = false by decide]
  have h2 : (' ' :: w).dropWhile nsq = ' ' :: w :=
    osr_dropWhile_cons_false nsq ' ' w (by decide)
  have hemp : u.isEmpty = false := by
    cases u with
    | nil => exact absurd rfl hne
    | cons c cs => rfl
  unfold unit1
  rw [osr_takeWhile_append nsq u (' ' :: w) hu, h1, List.append_nil]
  rw [osr_dropWhile_append nsq u (' ' :: w) hu, h2]
  simp [hemp]

lemma osr_takeWhile_all (p : Char → Bool) (u : List Char)
    (hu : ∀ c ∈ u, p c = true) : u.takeWhile p = u := by
  have := osr_takeWhile_append p u [] hu
  simpa using this

lemma osr_dropWhile_all (p : Char → Bool) (u : List Char)
    (hu : ∀ c ∈ u, p c = true) : u.dropWhile p = [] := by
  have := osr_dropWhile_append p u [] hu
  simpa using this

lemma unit1_all (u : List Char) (hu : ∀ c ∈ u, nsq c = true) (hne : u ≠ []) :
    unit1 u = some (u, []) := by
  have hemp : u.isEmpty = false := by
    cases u with
    | nil => exact absurd rfl hne
    | cons c cs => rfl
  unfold unit1
  rw [osr_takeWhile_all nsq u hu, osr_dropWhile_all nsq u hu]
  simp [hemp]

lemma unit1_space_head (w : List Char) : unit1 (' ' :: w) = none := by
  unfold unit1
  simp [List.takeWhile_cons, show nsq ' ' = false by decide]

lemma unit2_space_head (w : List Char) : unit2 (' ' :: w) = none := by
  unfold unit2
  simp [show isQuote ' ' = false by decide]

lemma unitsGo_space (f : Nat) (w : List Char) :
    unitsGo f (' ' :: w) = ([], ' ' :: w) := by
  cases f with
  | zero => rfl
  | succ g => simp [unitsGo, unit1_space_head, unit2_space_head]

lemma unitsGo_nil (f : Nat) : unitsGo f [] = ([], []) := by
  cases f with
  | zero => rfl
  | succ g => simp [unitsGo, show unit1 [] = none from rfl, show unit2 [] = none from rfl]

lemma unitsGo_token_space (f : Nat) (u w : List Char)
    (hu : ∀ c ∈ u, nsq c = true) (hne : u ≠ []) :
    unitsGo (f + 1) (u ++ ' ' :: w) = (u, ' ' :: w) := by
  simp [unitsGo, unit1_space u w hu hne, unitsGo_space f w]

lemma unitsGo_token_all (f : Nat) (u : List Char)
    (hu : ∀ c ∈ u, nsq c = true) (hne : u ≠ []) :
    unitsGo (f + 1) u = (u, []) := by
  cases u with
  | nil => exact absurd rfl hne
  | cons c cs =>
    simp [unitsGo, unit1_all (c :: cs) hu hne, unitsGo_nil f]

lemma tokensGo_nil (f : Nat) : tokensGo f [] = [] := by
  cases f <;> rfl

lemma tokensGo_token_space (f : Nat) (c : Char) (u2 w : List Char)
    (hu : ∀ x ∈ c :: u2, nsq x = true) :
    tokensGo (f + 1) ((c :: u2) ++ ' ' :: w) = (c :: u2) :: tokensGo f (' ' :: w) := by
  have hne : (c :: u2) ≠ [] := by simp
  have hug := unitsGo_token_space ((u2 ++ ' ' :: w).length) (c :: u2) w hu hne
  simp only [List.cons_append, List.length_append, List.length_cons] at hug
  simp [tokensGo, hug]

lemma tokensGo_advance_space (f : Nat) (w : List Char) :
    tokensGo (f + 1) (' ' :: w) = tokensGo f w := by
  simp [tokensGo, unitsGo_space]

lemma tokensGo_token_all (f : Nat) (c : Char) (u2 : List Char)
    (hu : ∀ x ∈ c :: u2, nsq x = true) :
    tokensGo (f + 1) (c :: u2) = [c :: u2] := by
  have hug := unitsGo_token_all (u2.length) (c :: u2) hu (by simp)
  simp [tokensGo, hug, tokensGo_nil]

lemma tokenize_two (t1 t2 : List Char) (h1 : t1 ≠ []) (h2 : t2 ≠ [])
    (hu1 : ∀ c ∈ t1, nsq c = true) (hu2 : ∀ c ∈ t2, nsq c = true) :
    tokenize (t1 ++ ' ' :: t2) = [t1, t2] := by
  obtain ⟨c, u2, rfl⟩ : ∃ c u2, t1 = c :: u2 := by
    cases t1 with
    | nil => exact absurd rfl h1
    | cons c u2 => exact ⟨c, u2, rfl⟩
  obtain ⟨d, w2, rfl⟩ : ∃ d w2, t2 = d :: w2 := by
    cases t2 with
    | nil => exact absurd rfl h2
    | cons d w2 => exact ⟨d, w2, rfl⟩
  unfold tokenize
  have hL : ((c :: u2) ++ ' ' :: d :: w2).length =
      (u2.length + w2.length + 2) + 1 := by
    simp
    omega
  rw [hL]
  rw [tokensGo_token_space (u2.length + w2.length + 2) c u2 (d :: w2) hu1]
  rw [show u2.length + w2.length + 2 = (u2.length + w2.length + 1) + 1 from rfl]
  rw [tokensGo_advance_space]
  rw [tokensGo_token_all (u2.length + w2.length) d w2 hu2]

lemma expandStar_id (l : List Char) (h : ∀ c ∈ l, c ≠ '*') : expandStar l = l := by
  induction l with
  | nil => rfl
  | cons c cs ih =>
    unfold expandStar
    rw [if_neg (h c (by simp))]
    rw [ih fun x hx => h x (by simp [hx])]

lemma expandQn_id (l : List Char) (h : ∀ c ∈ l, c ≠ '?') : expandQn l = l := by
  induction l with
  | nil => rfl
  | cons c cs ih =>
    unfold expandQn
    rw [if_neg (h c (by simp))]
    rw [ih fun x hx => h x (by simp [hx])]

lemma expandTerm_escape (t : List Char) (hp : ∀ c ∈ t, plainTermChar c = true) :
    expandTerm (escapeChars t) = escapeChars t := by
  have hstar : ∀ c ∈ escapeChars t, c ≠ '*' := by
    intro c hc
    rcases escapeChars_mem t c hc with rfl | hct
    · decide
    · exact (plain_props c (hp c hct)).2.1
  have hqn : ∀ c ∈ escapeChars t, c ≠ '?' := by
    intro c hc
    rcases escapeChars_mem t c hc with rfl | hct
    · decide
    · exact (plain_props c (hp c hct)).2.2
  have hquote : ∀ c ∈ escapeChars t, (!isQuote c) = true := by
    intro c hc
    rcases escapeChars_mem t c hc with rfl | hct
    · decide
    · have := (plain_props c (hp c hct)).1
      unfold nsq at this
      simp only [Bool.and_eq_true] at this
      exact this.2
  unfold expandTerm
  rw [expandStar_id _ hstar, expandQn_id _ hqn]
  exact List.filter_eq_self.mpr hquote

lemma parseAtoms_cons_plain (c : Char) (rest : List Char)
    (h1 : c ≠ '\\') (h2 : c ≠ '.') :
    parseAtoms (c :: rest) = Atom.lit c :: parseAtoms rest := by
  rw [parseAtoms.eq_def]
  split <;> simp_all

lemma parseAtoms_escape (t : List Char) :
    parseAtoms (escapeChars t) = t.map Atom.lit := by
  induction t with
  | nil => rfl
  | cons c cs ih =>
    unfold escapeChars
    by_cases hc : isEscaped c = true
    · rw [if_pos hc]
      show parseAtoms ('\\' :: c :: escapeChars cs) = Atom.lit c :: cs.map Atom.lit
      rw [show parseAtoms ('\\' :: c :: escapeChars cs) =
          Atom.lit c :: parseAtoms (escapeChars cs) from rfl, ih]
    · rw [if_neg hc]
      have h1 : c ≠ '\\' := fun he => hc (by rw [he]; decide)
      have h2 : c ≠ '.' := fun he => hc (by rw [he]; decide)
      rw [parseAtoms_cons_plain c _ h1 h2, ih]
      rfl

lemma matchAtoms_lits (t xs : List Char) :
    matchAtoms (t.map Atom.lit) xs = ciStarts t xs := by
  induction t generalizing xs with
  | nil => rfl
  | cons c t ih =>
    cases xs with
    | nil => rfl
    | cons x xs => simp [matchAtoms, ciStarts, ih]

lemma matchAtoms_star (as : List Atom) (xs : List Char) :
    matchAtoms (.star :: as) xs =
      (List.range (xs.length + 1)).any fun j =>
        (xs.take j).all isDotChar && matchAtoms as (xs.drop j) := rfl

lemma osr_any_congr {α : Type} (l : List α) (p q : α → Bool)
    (h : ∀ a ∈ l, p a = q a) : l.any p = l.any q := by
  induction l with
  | nil => rfl
  | cons a l ih =>
    simp only [List.any_cons, h a (by simp)]
    rw [ih fun x hx => h x (by simp [hx])]

lemma osr_any_map {α β : Type} (l : List α) (f : α → β) (p : β → Bool) :
    (l.map f).any p = l.any fun x => p (f x) := by
  induction l with
  | nil => rfl
  | cons a l ih => simp [List.any_cons, ih]

lemma star_lits (t xs : List Char) (hd : ∀ c ∈ xs, isDotChar c = true) :
    matchAtoms (.star :: t.map Atom.lit) xs = ciSubstr t xs := by
  rw [matchAtoms_star]
  unfold ciSubstr
  apply osr_any_congr
  intro j _
  rw [matchAtoms_lits]
  have htake : (xs.take j).all isDotChar = true := by
    rw [List.all_eq_true]
    intro c hc
    exact hd c (List.take_subset j xs hc)
  rw [htake, Bool.true_and]

lemma ciSubstr_cons (t : List Char) (x : Char) (xs : List Char) :
    ciSubstr t (x :: xs) = (ciStarts t (x :: xs) || ciSubstr t xs) := by
  unfold ciSubstr
  rw [show (x :: xs).length + 1 = (xs.length + 1) + 1 from rfl]
  rw [List.range_succ_eq_map]
  rw [List.any_cons, osr_any_map]
  rfl

lemma ciSubstr_of_drop (t xs : List Char) (k : Nat)
    (h : ciSubstr t (xs.drop k) = true) : ciSubstr t xs = true := by
  induction k generalizing xs with
  | zero => simpa using h
  | succ n ih =>
    cases xs with
    | nil => simpa using h
    | cons x xs =>
      rw [ciSubstr_cons]
      have := ih xs (by simpa using h)
      simp [this]

lemma jsTrim_mid_space (a b : List Char)
    (ha : ∀ c ∈ a, nsq c = true) (hb : ∀ c ∈ b, nsq c = true)
    (hna : a ≠ []) (hnb : b ≠ []) : jsTrim (a ++ ' ' :: b) = a ++ ' ' :: b := by
  obtain ⟨c, u2, rfl⟩ : ∃ c u2, a = c :: u2 := by
    cases a with
    | nil => exact absurd rfl hna
    | cons c u2 => exact ⟨c, u2, rfl⟩
  unfold jsTrim
  have hfront : ((c :: u2) ++ ' ' :: b).dropWhile isSpaceJS = (c :: u2) ++ ' ' :: b := by
    rw [List.cons_append]
    exact osr_dropWhile_cons_false _ _ _ (nsq_not_space c (ha c (by simp)))
  rw [hfront]
  obtain ⟨e, r2, hrev⟩ : ∃ e r2, b.reverse = e :: r2 := by
    cases hh : b.reverse with
    | nil => exact absurd (List.reverse_eq_nil_iff.mp hh) hnb
    | cons e r2 => exact ⟨e, r2, rfl⟩
  have he : e ∈ b := by
    rw [← List.mem_reverse, hrev]
    simp
  have hback : ((c :: u2) ++ ' ' :: b).reverse = e :: (r2 ++ ' ' :: (c :: u2).reverse) := by
    rw [show (c :: u2) ++ ' ' :: b = (c :: u2) ++ [' '] ++ b by simp]
    rw [List.reverse_append, List.reverse_append, hrev]
    simp
  rw [hback]
  rw [osr_dropWhile_cons_false _ _ _ (nsq_not_space e (hb e he))]
  rw [← hback, List.reverse_reverse]

lemma getSearchRegex_two (t1 t2 : List Char) (h1 : t1 ≠ []) (h2 : t2 ≠ [])
    (hp1 : ∀ c ∈ t1, plainTermChar c = true) (hp2 : ∀ c ∈ t2, plainTermChar c = true) :
    getSearchRegex (String.mk (t1 ++ ' ' :: t2)) = [escapeChars t1, escapeChars t2] := by
  unfold getSearchRegex
  rw [if_neg (by
    intro he
    have : t1 ++ ' ' :: t2 = [] := by
      have := congrArg String.toList he
      simpa using this
    simp at this)]
  rw [show (String.mk (t1 ++ ' ' :: t2)).toList = t1 ++ ' ' :: t2 from rfl]
  rw [escapeChars_append]
  rw [show escapeChars (' ' :: t2) = ' ' :: escapeChars t2 from rfl]
  rw [jsTrim_mid_space _ _ (nsq_escape t1 hp1) (nsq_escape t2 hp2)
    (escapeChars_ne_nil t1 h1) (escapeChars_ne_nil t2 h2)]
  rw [tokenize_two (escapeChars t1) (escapeChars t2) (escapeChars_ne_nil t1 h1)
    (escapeChars_ne_nil t2 h2) (nsq_escape t1 hp1) (nsq_escape t2 hp2)]
  simp [expandTerm_escape t1 hp1, expandTerm_escape t2 hp2]

lemma matchAtoms_star_skip (as : List Atom) (u v : List Char)
    (hu : ∀ c ∈ u, isDotChar c = true) (hm : matchAtoms as v = true) :
    matchAtoms (.star :: as) (u ++ v) = true := by
  rw [matchAtoms_star]
  apply List.any_eq_true.mpr
  refine ⟨u.length, ?_, ?_⟩
  · simp only [List.mem_range, List.length_append]
    omega
  · rw [List.take_left, List.drop_left]
    rw [List.all_eq_true.mpr hu, hm]
    rfl

/-- The full case analysis of customCheckValidity's cascade: each reason is
reported exactly when its rule fails and every earlier rule passes. -/
lemma checkReason_spec (values : List String) (v : String) :
    (checkReason values v = Reason.EMPTY ↔ v = "") ∧
    (checkReason values v = Reason.PATTERN_MISMATCH ↔ v ≠ "" ∧ patternOk v = false) ∧
    (checkReason values v = Reason.LENGTH_OUT_OF_RANGE ↔
      v ≠ "" ∧ patternOk v = true ∧ 64 < v.length) ∧
    (checkReason values v = Reason.DUPLICATE ↔
      v ≠ "" ∧ patternOk v = true ∧ v.length ≤ 64 ∧ duplicatedIedName values v = true) ∧
    (checkReason values v = Reason.VALID ↔
      v ≠ "" ∧ patternOk v = true ∧ v.length ≤ 64 ∧ duplicatedIedName values v = false) := by
  by_cases hv : v = ""
  · subst hv
    refine ⟨by simp [checkReason, valueMissing], ?_, ?_, ?_, ?_⟩ <;>
      simp [checkReason, valueMissing]
  · have hpos : ¬(v.length < 1) := by
      have := osr_length_pos v hv
      omega
    by_cases hp : patternOk v = true
    · by_cases hl : 64 < v.length
      · refine ⟨?_, ?_, ?_, ?_, ?_⟩ <;>
          simp [checkReason, valueMissing, patternMismatch, tooShort, tooLong,
            hv, hp, hl, hpos]
      · by_cases hd : duplicatedIedName values v = true
        · refine ⟨?_, ?_, ?_, ?_, ?_⟩ <;>
            simp [checkReason, valueMissing, patternMismatch, tooShort, tooLong,
              hv, hp, hl, hpos, hd, Nat.not_lt] <;> omega
        · refine ⟨?_, ?_, ?_, ?_, ?_⟩ <;>
            simp [checkReason, valueMissing, patternMismatch, tooShort, tooLong,
              hv, hp, hl, hpos, hd, Nat.not_lt] <;> omega
    · refine ⟨?_, ?_, ?_, ?_, ?_⟩ <;>
        simp [checkReason, valueMissing, patternMismatch, tooShort, tooLong, hv, hp]

/-! Claim theorems. -/

/-- C1: every edit re-validates every item of the session against the live
set of values, and allIedNamesValid equals the conjunction of all items'
individual validity after the edit. -/
theorem edit_revalidates_all (s : Session) (i : Nat) (v : String)
    (h : i < s.items.length) :
    (setCurrentValue s i v).allIedNamesValid =
      ((setCurrentValue s i v).items.all fun it => decide (it.reason = Reason.VALID)) ∧
    ∀ it ∈ (setCurrentValue s i v).items,
      it.reason = checkReason (liveValues (setCurrentValue s i v).items) it.value := by
  obtain ⟨it0, hget⟩ : ∃ a, s.items.get? i = some a := by
    rw [List.get?_eq_get h]
    exact ⟨_, rfl⟩
  obtain ⟨b, hitems, hvalid⟩ := setCurrentValue_shape s i v it0 hget
  obtain ⟨h1, h2, h3⟩ := engine_core (s.items.set i { it0 with value := v }) i b
  constructor
  · rw [hvalid, hitems, h1]
  · intro it hit
    rw [hitems] at hit
    rw [hitems, h2]
    exact h3 it hit

/-- C1 witness: after a concrete edit the stored flag equals the conjunction
of the items' validity. -/
theorem edit_revalidates_all_witness :
    (setCurrentValue (run ["IED1", "IED2"]) 0 "IEDX").allIedNamesValid =
      ((setCurrentValue (run ["IED1", "IED2"]) 0 "IEDX").items.all fun it =>
        decide (it.reason = Reason.VALID)) :=
  (edit_revalidates_all (run ["IED1", "IED2"]) 0 "IEDX" (by decide)).1

/-- C9: applying the same edit twice in a row leaves exactly the state of
applying it once, every field included. -/
theorem setCurrentValue_idempotent (s : Session) (i : Nat) (v : String) :
    setCurrentValue (setCurrentValue s i v) i v = setCurrentValue s i v := by
  cases hget : s.items.get? i with
  | none =>
    have hs : setCurrentValue s i v = s := by simp only [setCurrentValue, hget]
    rw [hs, hs]
  | some it0 =>
    have hlt : i < s.items.length := (List.get?_eq_some.mp hget).1
    have hg1 : (s.items.set i { it0 with value := v }).get? i =
        some { it0 with value := v } :=
      List.get?_set_eq_of_lt _ (by simpa using hlt)
    by_cases hvo : v = it0.oldName
    · have e1 := setCurrentValue_neg s i v it0 hget hvo
      obtain ⟨hAll, hVals, hReasons⟩ :=
        engine_core (s.items.set i { it0 with value := v }) i false
      have hg3 : (setChanged (revalidate (s.items.set i { it0 with value := v })) i false).get? i =
          some (IedItem.mk it0.oldName v
            (checkReason (liveValues (s.items.set i { it0 with value := v })) v) false) := by
        have hrg := revalidate_get (s.items.set i { it0 with value := v }) i _ hg1
        exact setChanged_get_self _ _ _ _ hrg
      have e2 := setCurrentValue_neg (setCurrentValue s i v) i v
        (IedItem.mk it0.oldName v
          (checkReason (liveValues (s.items.set i { it0 with value := v })) v) false)
        (by rw [e1]; exact hg3) hvo
      rw [e2, e1]
      have hT : (setChanged (revalidate (s.items.set i { it0 with value := v })) i false).set i
          { IedItem.mk it0.oldName v
              (checkReason (liveValues (s.items.set i { it0 with value := v })) v) false with
            value := v } =
          setChanged (revalidate (s.items.set i { it0 with value := v })) i false :=
        osr_set_self _ _ _ hg3
      have hRT : revalidate (setChanged (revalidate (s.items.set i { it0 with value := v })) i false) =
          setChanged (revalidate (s.items.set i { it0 with value := v })) i false := by
        apply revalidate_eq_self
        intro it hit
        rw [hVals]
        exact hReasons it hit
      simp only [Session.mk.injEq]
      refine ⟨?_, ?_, ?_⟩
      · rw [hT, hRT, setChanged_setChanged]
      · rw [List.filter_filter]
        simp
      · rw [hT]
        exact allNamesValid_congr _ _ hVals
    · have e1 := setCurrentValue_pos s i v it0 hget hvo
      obtain ⟨hAll, hVals, hReasons⟩ :=
        engine_core (s.items.set i { it0 with value := v }) i true
      have hg3 : (setChanged (revalidate (s.items.set i { it0 with value := v })) i true).get? i =
          some (IedItem.mk it0.oldName v
            (checkReason (liveValues (s.items.set i { it0 with value := v })) v) true) := by
        have hrg := revalidate_get (s.items.set i { it0 with value := v }) i _ hg1
        exact setChanged_get_self _ _ _ _ hrg
      have e2 := setCurrentValue_pos (setCurrentValue s i v) i v
        (IedItem.mk it0.oldName v
          (checkReason (liveValues (s.items.set i { it0 with value := v })) v) true)
        (by rw [e1]; exact hg3) hvo
      rw [e2, e1]
      have hT : (setChanged (revalidate (s.items.set i { it0 with value := v })) i true).set i
          { IedItem.mk it0.oldName v
              (checkReason (liveValues (s.items.set i { it0 with value := v })) v) true with
            value := v } =
          setChanged (revalidate (s.items.set i { it0 with value := v })) i true :=
        osr_set_self _ _ _ hg3
      have hRT : revalidate (setChanged (revalidate (s.items.set i { it0 with value := v })) i true) =
          setChanged (revalidate (s.items.set i { it0 with value := v })) i true := by
        apply revalidate_eq_self
        intro it hit
        rw [hVals]
        exact hReasons it hit
      have hC : ((if s.iedsToRename.contains it0.oldName then s.iedsToRename
          else s.iedsToRename ++ [it0.oldName]).contains it0.oldName) = true := by
        by_cases hc : s.iedsToRename.contains it0.oldName = true
        · rw [if_pos hc]
          exact hc
        · rw [if_neg (by simpa using hc)]
          simp
      simp only [Session.mk.injEq]
      refine ⟨?_, ?_, ?_⟩
      · rw [hT, hRT, setChanged_setChanged]
      · rw [if_pos hC]
      · rw [hT]
        exact allNamesValid_congr _ _ hVals

/-- C2: loading IED1 and IED2 and setting IED1's value to IED2 marks both
items DUPLICATE and makes allIedNamesValid false; reverting IED1's value to
IED1 restores both to VALID, empties iedsToRename, and restores
allIedNamesValid. -/
theorem duplicate_symmetric_reversible :
    (setCurrentValue (run ["IED1", "IED2"]) 0 "IED2").items.map
        (fun it => it.reason) = [Reason.DUPLICATE, Reason.DUPLICATE] ∧
    (setCurrentValue (run ["IED1", "IED2"]) 0 "IED2").allIedNamesValid = false ∧
    (setCurrentValue (run ["IED1", "IED2"]) 0 "IED2").iedsToRename = ["IED1"] ∧
    (setCurrentValue (setCurrentValue (run ["IED1", "IED2"]) 0 "IED2") 0 "IED1").items.map
        (fun it => it.reason) = [Reason.VALID, Reason.VALID] ∧
    (setCurrentValue (setCurrentValue (run ["IED1", "IED2"]) 0 "IED2") 0 "IED1").iedsToRename = [] ∧
    (setCurrentValue (setCurrentValue (run ["IED1", "IED2"]) 0 "IED2") 0 "IED1").allIedNamesValid = true := by
  decide

/-- C3 counterexample: a value of 64 letters is accepted as VALID by the
engine (the field's maxLength is 64), not rejected with
LENGTH_OUT_OF_RANGE as the claim states. -/
theorem length64_accepted :
    (setCurrentValue (run ["IED1"]) 0 (String.mk (List.replicate 64 'A'))).items.map
        (fun it => it.reason) = [Reason.VALID] ∧
    Reason.VALID ≠ Reason.LENGTH_OUT_OF_RANGE := by
  decide

/-- C3 amended: a nonempty pattern-conforming value is rejected with
LENGTH_OUT_OF_RANGE exactly when its length exceeds 64 (so the accepted
length range is 1 to 64, not 1 to 63), and a 65-letter value is so
rejected. -/
theorem length_rule_bounds (values : List String) (v : String) :
    (checkReason values v = Reason.LENGTH_OUT_OF_RANGE ↔
      v ≠ "" ∧ patternOk v = true ∧ 64 < v.length) ∧
    (setCurrentValue (run ["IED1"]) 0 (String.mk (List.replicate 65 'A'))).items.map
        (fun it => it.reason) = [Reason.LENGTH_OUT_OF_RANGE] :=
  ⟨(checkReason_spec values v).2.2.1, by decide⟩

/-- C3 witness: the length rule fires on a concrete 65-letter value. -/
theorem length_rule_bounds_witness :
    checkReason [] (String.mk (List.replicate 65 'A')) = Reason.LENGTH_OUT_OF_RANGE :=
  (length_rule_bounds [] (String.mk (List.replicate 65 'A'))).1.mpr
    ⟨by decide, by decide, by decide⟩

/-- C4 counterexample: after two valid distinct edits in a three-item
session the commit handler issues three commands, including a pair renaming
IED3 to its unchanged name, while iedsToRename holds only the two
edited identities and commit is enabled. -/
theorem commit_includes_unchanged :
    commitPairs ["IED1", "IED2", "IED3"]
        (setCurrentValue (setCurrentValue (run ["IED1", "IED2", "IED3"]) 0 "IEDA") 1 "IEDB") =
      [("IED1", "IEDA"), ("IED2", "IEDB"), ("IED3", "IED3")] ∧
    (setCurrentValue (setCurrentValue (run ["IED1", "IED2", "IED3"]) 0 "IEDA") 1 "IEDB").iedsToRename =
      ["IED1", "IED2"] ∧
    renameDisabled
        (setCurrentValue (setCurrentValue (run ["IED1", "IED2", "IED3"]) 0 "IEDA") 1 "IEDB") =
      false := by
  decide

/-- C4 amended: commit issues one command per session item whose original
name is still in the document, pairing the old name with the current value,
for every item, changed or not. -/
theorem commit_pairs_every_item (docNames : List String) (s : Session)
    (h : ∀ it ∈ s.items, docNames.contains it.oldName = true) :
    commitPairs docNames s = s.items.map fun it => (it.oldName, it.value) := by
  unfold commitPairs
  rw [List.filter_eq_self.mpr h]

/-- C4 witness: the amended commit law at a concrete one-item session. -/
theorem commit_pairs_every_item_witness :
    commitPairs ["IED1"] (run ["IED1"]) =
      (run ["IED1"]).items.map fun it => (it.oldName, it.value) :=
  commit_pairs_every_item ["IED1"] (run ["IED1"]) (by decide)

/-- C5: the validation rules are evaluated in priority order, the first
failing rule alone fixes the reported reason, and a value passing all four
rules is VALID. -/
theorem validation_priority_order (values : List String) (v : String) :
    (checkReason values v = Reason.EMPTY ↔ v = "") ∧
    (checkReason values v = Reason.PATTERN_MISMATCH ↔ v ≠ "" ∧ patternOk v = false) ∧
    (checkReason values v = Reason.LENGTH_OUT_OF_RANGE ↔
      v ≠ "" ∧ patternOk v = true ∧ 64 < v.length) ∧
    (checkReason values v = Reason.DUPLICATE ↔
      v ≠ "" ∧ patternOk v = true ∧ v.length ≤ 64 ∧ duplicatedIedName values v = true) ∧
    (checkReason values v = Reason.VALID ↔
      v ≠ "" ∧ patternOk v = true ∧ v.length ≤ 64 ∧ duplicatedIedName values v = false) :=
  checkReason_spec values v

/-- C5 witness: a concrete value passing every rule is reported VALID. -/
theorem validation_priority_order_witness :
    checkReason ["IED9"] "IED9" = Reason.VALID :=
  (validation_priority_order ["IED9"] "IED9").2.2.2.2.mpr
    ⟨by decide, by decide, by decide, by decide⟩

/-- C6: the Rename IEDs action is enabled exactly when iedsToRename is
nonempty and allIedNamesValid holds; otherwise it is merely disabled. -/
theorem committable_iff (s : Session) :
    renameDisabled s = false ↔ s.iedsToRename ≠ [] ∧ s.allIedNamesValid = true := by
  rcases s with ⟨items, toRename, allValid⟩
  cases allValid <;> simp [renameDisabled, List.length_eq_zero]

/-- C6 witness: a session with one pending rename and all names valid is
committable. -/
theorem committable_iff_witness :
    renameDisabled { items := [], iedsToRename := ["IED1"], allIedNamesValid := true } = false :=
  (committable_iff _).mpr ⟨by decide, rfl⟩

/-- C7 counterexample: with terms foo and bar, both occur case-insensitively
as substrings of the candidate holding a newline between them, yet the
compiled regex rejects it (a JavaScript dot never crosses a line
terminator), so the claimed equivalence fails for that candidate. -/
theorem search_and_newline :
    ciSubstr "foo".toList "foo\nbar".toList = true ∧
    ciSubstr "bar".toList "foo\nbar".toList = true ∧
    regexTest (getSearchRegex "foo bar") "foo\nbar" = false := by
  decide

/-- C7 amended: for two whitespace-separated plain terms and any candidate
free of line terminators, the compiled query accepts the candidate exactly
when both terms occur in it as case-insensitive substrings, in any order and
position. -/
theorem search_two_terms (t1 t2 s : List Char) (h1 : t1 ≠ []) (h2 : t2 ≠ [])
    (hp1 : ∀ c ∈ t1, plainTermChar c = true) (hp2 : ∀ c ∈ t2, plainTermChar c = true)
    (hs : ∀ c ∈ s, isDotChar c = true) :
    regexTestL (getSearchRegex (String.mk (t1 ++ ' ' :: t2))) s = true ↔
      ciSubstr t1 s = true ∧ ciSubstr t2 s = true := by
  rw [getSearchRegex_two t1 t2 h1 h2 hp1 hp2]
  unfold regexTestL
  constructor
  · intro h
    rcases List.any_eq_true.mp h with ⟨k, _, hcond⟩
    have hd : ∀ c ∈ s.drop k, isDotChar c = true :=
      fun c hc => hs c (List.drop_subset k s hc)
    simp only [List.all_cons, List.all_nil, Bool.and_true, Bool.and_eq_true] at hcond
    obtain ⟨hm1, hm2⟩ := hcond
    rw [parseAtoms_escape, star_lits _ _ hd] at hm1
    rw [parseAtoms_escape, star_lits _ _ hd] at hm2
    exact ⟨ciSubstr_of_drop _ _ _ hm1, ciSubstr_of_drop _ _ _ hm2⟩
  · intro hsub
    apply List.any_eq_true.mpr
    refine ⟨0, by simp, ?_⟩
    simp only [List.drop_zero, List.all_cons, List.all_nil, Bool.and_true]
    rw [parseAtoms_escape, parseAtoms_escape, star_lits _ _ hs, star_lits _ _ hs,
      hsub.1, hsub.2]
    rfl

/-- C7 witness: foo and bar both occur in barXfoo, so the compiled query
accepts it. -/
theorem search_two_terms_witness :
    regexTestL (getSearchRegex (String.mk ("foo".toList ++ ' ' :: "bar".toList)))
      "barXfoo".toList = true :=
  (search_two_terms "foo".toList "bar".toList "barXfoo".toList (by decide) (by decide)
    (by decide) (by decide) (by decide)).mpr ⟨by decide, by decide⟩

/-- C8: in a compiled term the star matches any run of zero or more
characters and the question mark matches exactly one character: the query
a-star-c accepts abc, ac and abXc but rejects ab, and a-question-c accepts
axc for any single character x while rejecting ac and abbc. -/
theorem glob_semantics :
    (∀ mid : List Char, (∀ c ∈ mid, isDotChar c = true) →
      regexTestL (getSearchRegex "a*c") ('a' :: (mid ++ ['c'])) = true) ∧
    regexTest (getSearchRegex "a*c") "abc" = true ∧
    regexTest (getSearchRegex "a*c") "ac" = true ∧
    regexTest (getSearchRegex "a*c") "abXc" = true ∧
    regexTest (getSearchRegex "a*c") "ab" = false ∧
    (∀ x : Char, isDotChar x = true →
      regexTestL (getSearchRegex "a?c") ['a', x, 'c'] = true) ∧
    regexTest (getSearchRegex "a?c") "ac" = false ∧
    regexTest (getSearchRegex "a?c") "abbc" = false := by
  refine ⟨?_, by decide, by decide, by decide, by decide, ?_, by decide, by decide⟩
  · intro mid hmid
    rw [show getSearchRegex "a*c" = [['a', '.', '*', 'c']] from by decide]
    unfold regexTestL
    apply List.any_eq_true.mpr
    refine ⟨0, by simp, ?_⟩
    simp only [List.drop_zero, List.all_cons, List.all_nil, Bool.and_true]
    rw [show parseAtoms ['a', '.', '*', 'c'] = [.lit 'a', .star, .lit 'c'] from rfl]
    have htail : matchAtoms [Atom.lit 'a', Atom.star, Atom.lit 'c']
        ('a' :: (mid ++ ['c'])) = true := by
      rw [show matchAtoms [Atom.lit 'a', Atom.star, Atom.lit 'c'] ('a' :: (mid ++ ['c'])) =
          (ciEq 'a' 'a' && matchAtoms [Atom.star, Atom.lit 'c'] (mid ++ ['c'])) from rfl]
      rw [show ciEq 'a' 'a' = true from by decide, Bool.true_and]
      exact matchAtoms_star_skip [Atom.lit 'c'] mid ['c'] hmid (by decide)
    exact matchAtoms_star_skip _ [] ('a' :: (mid ++ ['c'])) (by simp) htail
  · intro x hx
    rw [show getSearchRegex "a?c" = [['a', '.', '{', '1', '}', 'c']] from by decide]
    unfold regexTestL
    apply List.any_eq_true.mpr
    refine ⟨0, by simp, ?_⟩
    simp only [List.drop_zero, List.all_cons, List.all_nil, Bool.and_true]
    rw [show parseAtoms ['a', '.', '{', '1', '}', 'c'] =
        [.lit 'a', .one, .lit 'c'] from rfl]
    have htail : matchAtoms [Atom.lit 'a', Atom.one, Atom.lit 'c'] ['a', x, 'c'] = true := by
      rw [show matchAtoms [Atom.lit 'a', Atom.one, Atom.lit 'c'] ['a', x, 'c'] =
          (ciEq 'a' 'a' && (isDotChar x && (ciEq 'c' 'c' && true))) from rfl]
      rw [hx, show ciEq 'a' 'a' = true from by decide, show ciEq 'c' 'c' = true from by decide]
      rfl
    exact matchAtoms_star_skip _ [] ['a', x, 'c'] (by simp) htail

/-- C8 witness: the star law applied to the concrete run XY. -/
theorem glob_semantics_witness :
    regexTestL (getSearchRegex "a*c") ('a' :: (['X', 'Y'] ++ ['c'])) = true :=
  glob_semantics.1 ['X', 'Y'] (by decide)

/-- C10: duplicate detection compares proposed names case-sensitively: two
values equal up to letter case but not identical never flag each other
DUPLICATE, each is VALID when it passes the other rules, while the search
side treats the same two spellings as equal. -/
theorem duplicate_case_sensitive (v1 v2 : String)
    (_hcase : v1.toList.map Char.toLower = v2.toList.map Char.toLower)
    (hne : v1 ≠ v2) :
    duplicatedIedName [v1, v2] v1 = false ∧
    duplicatedIedName [v1, v2] v2 = false ∧
    (patternOk v1 = true → v1.length ≤ 64 → checkReason [v1, v2] v1 = Reason.VALID) ∧
    (patternOk v2 = true → v2.length ≤ 64 → checkReason [v1, v2] v2 = Reason.VALID) ∧
    regexTest (getSearchRegex "IED1") "ied1" = true := by
  have hne' : v2 ≠ v1 := fun h => hne h.symm
  have d1 : duplicatedIedName [v1, v2] v1 = false := by
    simp [duplicatedIedName, List.filter_cons, List.filter_nil, beq_iff_eq, hne']
  have d2 : duplicatedIedName [v1, v2] v2 = false := by
    simp [duplicatedIedName, List.filter_cons, List.filter_nil, beq_iff_eq, hne]
  refine ⟨d1, d2, ?_, ?_, by decide⟩
  · intro hp hl
    exact (checkReason_spec [v1, v2] v1).2.2.2.2.mpr
      ⟨patternOk_ne_empty v1 hp, hp, hl, d1⟩
  · intro hp hl
    exact (checkReason_spec [v1, v2] v2).2.2.2.2.mpr
      ⟨patternOk_ne_empty v2 hp, hp, hl, d2⟩

/-- C10 witness: IED1 and ied1 do not flag each other and ied1 is VALID. -/
theorem duplicate_case_sensitive_witness :
    duplicatedIedName ["IED1", "ied1"] "IED1" = false ∧
    checkReason ["IED1", "ied1"] "ied1" = Reason.VALID := by
  have h := duplicate_case_sensitive "IED1" "ied1" (by decide) (by decide)
  exact ⟨h.1, h.2.2.2.1 (by decide) (by decide)⟩

end OscdRenameIeds
